import Mathlib

/-!
Shallow embedding of `src/kmers.cpp` (`calculate_log_probability`) from the
NaiveR repository, together with theorems settling the specification claims.

Modelling conventions:
* Rcpp `NumericVector` / `NumericMatrix` hold IEEE-754 doubles.  We model
  finite double values as exact rationals (`ℚ`); rounding of arithmetic is
  not modelled.  The special values that the claims mention (±infinity, NaN)
  arise only as *results* of the division and of `log`, and are modelled
  explicitly by the `DivResult` and `LogVal` types.
* Vector indexing in the source is unchecked (`operator[]`) or throwing
  (`operator()`); either way an out-of-range index does not yield a defined
  value, so both are modelled as an `EvalErr.oobAccess` error.
* The C++ conversion `int genus_count_plus1 = genus_counts[j] + 1;` truncates
  the double toward zero and is undefined behaviour when the truncated value
  does not fit in a signed 32-bit `int`; the undefined case is modelled as an
  `EvalErr.intOverflow` error.
* The `for` loops are modelled by `iterUp`, which runs a loop body on
  `0, 1, ..., n-1` in ascending order, short-circuiting on the first error,
  exactly like the aborting C++ execution.
-/

namespace NaiveR

/-- Result of the floating-point division in the source: an exact finite
value, or one of the IEEE special values produced by division by zero. -/
inductive DivResult where
  | val (q : ℚ)
  | posInf
  | negInf
  | nan
deriving DecidableEq, Repr

/-- Value of an output matrix entry after `log`: a finite real, or one of
the IEEE special values. -/
inductive LogVal where
  | real (r : ℝ)
  | posInf
  | negInf
  | nan

/-- A `LogVal` that is not a finite real number (an IEEE special value). -/
def LogVal.isSpecial : LogVal → Prop
  | .real _ => False
  | .posInf => True
  | .negInf => True
  | .nan => True

/-- Dense rectangular matrix (Rcpp `NumericMatrix`): explicit dimensions plus
a total entry map; only entries with `i < nrow` and `j < ncol` are
meaningful. -/
@[ext] structure Mat (α : Type) where
  nrow : Nat
  ncol : Nat
  data : Nat → Nat → α

/-- Write one cell of a matrix (the assignment `log_probs(i, j) = ...`). -/
def Mat.setCell (m : Mat α) (i j : Nat) (v : α) : Mat α :=
  { m with data := fun i' j' => if i' = i ∧ j' = j then v else m.data i' j' }

/-- Map a function over all entries of a matrix. -/
def Mat.map (f : α → β) (m : Mat α) : Mat β :=
  ⟨m.nrow, m.ncol, fun i j => f (m.data i j)⟩

/-- Failure modes of the reference implementation: an out-of-range vector or
matrix index, and the undefined double→int conversion. -/
inductive EvalErr where
  | oobAccess
  | intOverflow
deriving DecidableEq, Repr

/-- Access `v[i]` / `v(i)` on an Rcpp vector: out-of-range indices have no
defined value and are modelled as an error. -/
def vget (v : List ℚ) (i : Nat) : Except EvalErr ℚ :=
  match v.get? i with
  | some x => .ok x
  | none => .error .oobAccess

/-- Access `m(i, j)` on an Rcpp matrix, checked against its dimensions. -/
def mget (m : Mat ℚ) (i j : Nat) : Except EvalErr ℚ :=
  if i < m.nrow ∧ j < m.ncol then .ok (m.data i j) else .error .oobAccess

/-- Smallest value of a signed 32-bit `int`. -/
def intMin : Int := -2147483648

/-- Largest value of a signed 32-bit `int`. -/
def intMax : Int := 2147483647

/-- Truncation of a rational toward zero (discarding the fractional part,
as the C++ double→int conversion does): floor for non-negative values,
`-⌊-q⌋` (i.e. the ceiling) for negative ones.  Written with integer
division so that it evaluates. -/
def ratTrunc (q : ℚ) : Int :=
  if 0 ≤ q then q.num / q.den else -((-q).num / ((-q).den : Int))

/-- C++ conversion of a double to a signed 32-bit `int`: truncate toward
zero; undefined behaviour (modelled as an error) when the truncated value is
not representable. -/
def double2int (q : ℚ) : Except EvalErr Int :=
  if intMin ≤ ratTrunc q ∧ ratTrunc q ≤ intMax then .ok (ratTrunc q) else .error .intOverflow

/-- Line 30 of the source: `int genus_count_plus1 = genus_counts[j] + 1;`
given the value `g` of `genus_counts[j]`. -/
def smoothingDenomOfTotal (g : ℚ) : Except EvalErr Int := double2int (g + 1)

/-- The smoothing denominator computed for column `j` of a run with genus
totals `genus_counts`. -/
def denomAt (genus_counts : List ℚ) (j : Nat) : Except EvalErr Int :=
  smoothingDenomOfTotal (genus_counts.getD j 0)

/-- The denominator value for column `j` when the conversion succeeds
(arbitrary default otherwise). -/
def denomVal (genus_counts : List ℚ) (j : Nat) : Int :=
  ((denomAt genus_counts j).toOption).getD 0

/-- IEEE-754 double division `num / den` where `den` was converted from an
`int` (so a negative zero denominator is impossible): division by zero
yields ±infinity or NaN, otherwise the exact quotient. -/
def ddiv (num den : ℚ) : DivResult :=
  if den = 0 then
    (if 0 < num then .posInf else if num < 0 then .negInf else .nan)
  else .val (num / den)

/-- IEEE-754 `log` on an idealized double: `log` of a positive finite value
is the real logarithm, `log 0 = -∞`, `log` of a negative value is NaN,
`log ∞ = ∞`, `log` of NaN or `-∞` is NaN. -/
noncomputable def dlog : DivResult → LogVal
  | .val q => if 0 < q then .real (Real.log q) else if q = 0 then .negInf else .nan
  | .posInf => .posInf
  | .negInf => .nan
  | .nan => .nan

/-- Ascending `for` loop: `iterUp f n s` runs `f 0`, `f 1`, ..., `f (n-1)`
in order, threading the state and stopping at the first error. -/
def iterUp (f : Nat → σ → Except EvalErr σ) : Nat → σ → Except EvalErr σ
  | 0, s => .ok s
  | n + 1, s => (iterUp f n s).bind (f n)

/-- Body of the inner loop (lines 33‑36) at row `i`, for the column `j`
whose converted denominator is `g1`:
`log_probs(i, j) = log((kmer_genus_count(i, j) + word_specific_priors(i)) / genus_count_plus1);`
(the `log` itself is applied uniformly afterwards by `Mat.map dlog`). -/
def innerBody (counts : Mat ℚ) (priors : List ℚ) (g1 : Int) (j : Nat)
    (i : Nat) (acc : Mat DivResult) : Except EvalErr (Mat DivResult) := do
  let c ← mget counts i j
  let p ← vget priors i
  pure (acc.setCell i j (ddiv (c + p) ((g1 : ℚ))))

/-- Body of the outer loop (lines 28‑37) at column `j`: read the genus
total, convert `genus_counts[j] + 1` to `int`, then run the inner loop over
all rows. -/
def colBody (counts : Mat ℚ) (priors genus_counts : List ℚ)
    (j : Nat) (acc : Mat DivResult) : Except EvalErr (Mat DivResult) := do
  let g ← vget genus_counts j
  let g1 ← smoothingDenomOfTotal g
  iterUp (innerBody counts priors g1 j) counts.nrow acc

/-- Line 25: `NumericMatrix log_probs(n_kmers, n_genera);` — a freshly
allocated matrix, zero-initialized. -/
def newMat (k g : Nat) : Mat DivResult := ⟨k, g, fun _ _ => .val 0⟩

/-- The division phase of `calculate_log_probability`: both loops of the
source, producing the matrix of quotients
`(kmer_genus_count(i,j) + word_specific_priors(i)) / genus_count_plus1`. -/
def calc_quot (counts : Mat ℚ) (priors genus_counts : List ℚ) :
    Except EvalErr (Mat DivResult) :=
  iterUp (colBody counts priors genus_counts) counts.ncol
    (newMat counts.nrow counts.ncol)

/-- `calculate_log_probability` from `src/kmers.cpp`: the quotient matrix
with `log` applied to every entry. -/
noncomputable def calculate_log_probability (counts : Mat ℚ)
    (priors genus_counts : List ℚ) : Except EvalErr (Mat LogVal) :=
  (calc_quot counts priors genus_counts).map (Mat.map dlog)

/-- Row-major restructuring of the same computation: iterate rows in the
outer loop and columns in the inner loop, computing each cell from exactly
the same reads as the source. Used to compare loop orders. -/
def rowCellBody (counts : Mat ℚ) (priors genus_counts : List ℚ) (i : Nat)
    (j : Nat) (acc : Mat DivResult) : Except EvalErr (Mat DivResult) := do
  let g ← vget genus_counts j
  let g1 ← smoothingDenomOfTotal g
  let c ← mget counts i j
  let p ← vget priors i
  pure (acc.setCell i j (ddiv (c + p) ((g1 : ℚ))))

/-- Outer (row) loop of the row-major variant. -/
def rowBody (counts : Mat ℚ) (priors genus_counts : List ℚ)
    (i : Nat) (acc : Mat DivResult) : Except EvalErr (Mat DivResult) :=
  iterUp (rowCellBody counts priors genus_counts i) counts.ncol acc

/-- The row-major variant of the division phase. -/
def calc_quot_rowMajor (counts : Mat ℚ) (priors genus_counts : List ℚ) :
    Except EvalErr (Mat DivResult) :=
  iterUp (rowBody counts priors genus_counts) counts.nrow
    (newMat counts.nrow counts.ncol)

/-- Row-major variant of the full function. -/
noncomputable def calculate_log_probability_rowMajor (counts : Mat ℚ)
    (priors genus_counts : List ℚ) : Except EvalErr (Mat LogVal) :=
  (calc_quot_rowMajor counts priors genus_counts).map (Mat.map dlog)

/-- The value stored at an in-range cell `(i, j)` by a successful run:
`(counts(i,j) + priors[i]) / (int)(genus_counts[j] + 1)`. -/
def fullCell (counts : Mat ℚ) (priors genus_counts : List ℚ) (i j : Nat) :
    DivResult :=
  ddiv (counts.data i j + priors.getD i 0) ((denomVal genus_counts j : ℚ))

/-- Modelled from the spec (§4.1, §8 formula property): the per-cell formula
`ln((c + p) / (⌊g⌋ + 1))`, reading `ln 0` as `-∞` as §8's zero-count edge
case does.  Used only to compare the implementation against the spec's
words. -/
noncomputable def specCell (c p g : ℚ) : LogVal :=
  if c + p = 0 then .negInf
  else .real (Real.log ((c + p) / ((⌊g⌋ : ℚ) + 1)))

/-! ### Basic lemmas about the embedding -/

theorem ok_bind (a : α) (f : α → Except EvalErr β) :
    (Except.ok a : Except EvalErr α) >>= f = f a := rfl

theorem error_bind (e : EvalErr) (f : α → Except EvalErr β) :
    (Except.error e : Except EvalErr α) >>= f = .error e := rfl

theorem iterUp_zero (f : Nat → σ → Except EvalErr σ) (s : σ) :
    iterUp f 0 s = .ok s := rfl

theorem iterUp_succ (f : Nat → σ → Except EvalErr σ) (n : Nat) (s : σ) :
    iterUp f (n + 1) s = (iterUp f n s) >>= f n := rfl

theorem vget_ok (v : List ℚ) (i : Nat) (h : i < v.length) :
    vget v i = .ok (v.getD i 0) := by
  rw [vget, List.getD_eq_get?]
  cases hq : v.get? i with
  | none => rw [List.get?_eq_none] at hq; omega
  | some x => rfl

theorem vget_oob (v : List ℚ) (i : Nat) (h : v.length ≤ i) :
    vget v i = .error .oobAccess := by
  rw [vget, List.get?_eq_none.mpr h]

theorem mget_ok (m : Mat ℚ) (i j : Nat) (hi : i < m.nrow) (hj : j < m.ncol) :
    mget m i j = .ok (m.data i j) := by
  rw [mget, if_pos ⟨hi, hj⟩]

theorem ratTrunc_eq_floor (q : ℚ) (h : 0 ≤ q) : ratTrunc q = ⌊q⌋ := by
  rw [ratTrunc, if_pos h, Rat.floor_def]

theorem ratTrunc_eq_ceil (q : ℚ) (h : ¬ 0 ≤ q) : ratTrunc q = ⌈q⌉ := by
  rw [ratTrunc, if_neg h, ← Rat.floor_def, Int.floor_neg, neg_neg]

/-- For a non-negative total that stays in `int` range, the converted
denominator is `⌊g⌋ + 1`. -/
theorem smoothingDenom_nonneg (g : ℚ) (hg : 0 ≤ g) (hub : ⌊g⌋ + 1 ≤ intMax) :
    smoothingDenomOfTotal g = .ok (⌊g⌋ + 1) := by
  have h1 : (0:ℚ) ≤ g + 1 := by linarith
  have h2 : ratTrunc (g + 1) = ⌊g⌋ + 1 := by
    rw [ratTrunc_eq_floor _ h1, Int.floor_add_one]
  have h3 : (0:Int) ≤ ⌊g⌋ := Int.floor_nonneg.mpr hg
  rw [smoothingDenomOfTotal, double2int, h2, if_pos]
  refine ⟨?_, hub⟩
  rw [intMin]
  omega

/-- The only error `double2int` can produce is the overflow error. -/
theorem double2int_error (q : ℚ) (e : EvalErr)
    (h : double2int q = .error e) : e = .intOverflow := by
  rw [double2int] at h
  split at h
  · exact absurd h (by simp)
  · exact ((Except.error.injEq _ _).mp h).symm

/-! ### Characterization of the loops -/

/-- Running the inner loop over rows `0, ..., K-1` writes the per-cell
quotient into column `j` of every one of those rows and touches nothing
else. -/
theorem Mat.eq_of_data (a b : Mat α) (h1 : a.nrow = b.nrow)
    (h2 : a.ncol = b.ncol) (h3 : ∀ i j, a.data i j = b.data i j) : a = b := by
  cases a
  cases b
  simp only [Mat.mk.injEq]
  exact ⟨h1, h2, funext fun i => funext fun j => h3 i j⟩

theorem inner_run (counts : Mat ℚ) (priors : List ℚ) (g1 : Int) (j : Nat)
    (hj : j < counts.ncol) :
    ∀ K : Nat, K ≤ counts.nrow → K ≤ priors.length → ∀ acc : Mat DivResult,
      iterUp (innerBody counts priors g1 j) K acc =
        .ok { acc with data := fun i' j' =>
          (if i' < K ∧ j' = j then
            ddiv (counts.data i' j' + priors.getD i' 0) ((g1 : ℚ))
          else acc.data i' j') } := by
  intro K
  induction K with
  | zero =>
    intro _ _ acc
    rw [iterUp_zero]
    refine congrArg Except.ok (Mat.eq_of_data _ _ rfl rfl ?_)
    intro i' j'
    simp
  | succ n ih =>
    intro hn hp acc
    rw [iterUp_succ, ih (by omega) (by omega) acc, ok_bind, innerBody,
      mget_ok counts n j (by omega) hj, ok_bind,
      vget_ok priors n (by omega), ok_bind]
    refine congrArg Except.ok (Mat.eq_of_data _ _ rfl rfl ?_)
    intro i' j'
    show (if i' = n ∧ j' = j then
        ddiv (counts.data n j + priors.getD n 0) ((g1 : ℚ))
      else if i' < n ∧ j' = j then
        ddiv (counts.data i' j' + priors.getD i' 0) ((g1 : ℚ))
      else acc.data i' j') =
      (if i' < n + 1 ∧ j' = j then
        ddiv (counts.data i' j' + priors.getD i' 0) ((g1 : ℚ))
      else acc.data i' j')
    by_cases h1 : i' = n ∧ j' = j
    · obtain ⟨rfl, rfl⟩ := h1
      rw [if_pos ⟨rfl, rfl⟩, if_pos ⟨Nat.lt_succ_self i', rfl⟩]
    · rw [if_neg h1]
      by_cases h2 : i' < n ∧ j' = j
      · rw [if_pos h2, if_pos ⟨Nat.lt_succ_of_lt h2.1, h2.2⟩]
      · rw [if_neg h2, if_neg (by
          rintro ⟨hlt, rfl⟩
          rcases Nat.lt_succ_iff_lt_or_eq.mp hlt with h | rfl
          · exact h2 ⟨h, rfl⟩
          · exact h1 ⟨rfl, rfl⟩)]

/-- Running the outer loop over columns `0, ..., n-1` (with the genus vector
long enough and every touched conversion in range) fills all cells in those
columns with `fullCell` and touches nothing else. -/
theorem outer_run (counts : Mat ℚ) (priors genus_counts : List ℚ)
    (hp : counts.nrow ≤ priors.length) :
    ∀ n : Nat, n ≤ counts.ncol → n ≤ genus_counts.length →
      (∀ j, j < n → ∃ d, denomAt genus_counts j = .ok d) →
      ∀ acc : Mat DivResult,
      iterUp (colBody counts priors genus_counts) n acc =
        .ok { acc with data := fun i' j' =>
          (if i' < counts.nrow ∧ j' < n then
            fullCell counts priors genus_counts i' j'
          else acc.data i' j') } := by
  intro n
  induction n with
  | zero =>
    intro _ _ _ acc
    rw [iterUp_zero]
    refine congrArg Except.ok (Mat.eq_of_data _ _ rfl rfl ?_)
    intro i' j'
    simp
  | succ n ih =>
    intro hn hg hrep acc
    obtain ⟨d, hd⟩ := hrep n (by omega)
    have hdval : denomVal genus_counts n = d := by
      rw [denomVal, hd]
      rfl
    rw [iterUp_succ, ih (by omega) (by omega)
      (fun j hj => hrep j (by omega)) acc, ok_bind, colBody,
      vget_ok genus_counts n (by omega), ok_bind]
    rw [show smoothingDenomOfTotal (genus_counts.getD n 0) = .ok d from hd,
      ok_bind]
    rw [inner_run counts priors d n (by omega) counts.nrow le_rfl hp]
    refine congrArg Except.ok (Mat.eq_of_data _ _ rfl rfl ?_)
    intro i' j'
    show (if i' < counts.nrow ∧ j' = n then
        ddiv (counts.data i' j' + priors.getD i' 0) ((d : ℚ))
      else if i' < counts.nrow ∧ j' < n then
        fullCell counts priors genus_counts i' j'
      else acc.data i' j') =
      (if i' < counts.nrow ∧ j' < n + 1 then
        fullCell counts priors genus_counts i' j'
      else acc.data i' j')
    by_cases h1 : i' < counts.nrow ∧ j' = n
    · obtain ⟨hi, rfl⟩ := h1
      rw [if_pos ⟨hi, rfl⟩, if_pos ⟨hi, Nat.lt_succ_self j'⟩, fullCell, hdval]
    · rw [if_neg h1]
      by_cases h2 : i' < counts.nrow ∧ j' < n
      · rw [if_pos h2, if_pos ⟨h2.1, Nat.lt_succ_of_lt h2.2⟩]
      · rw [if_neg h2, if_neg (by
          rintro ⟨hi, hj'⟩
          rcases Nat.lt_succ_iff_lt_or_eq.mp hj' with h | rfl
          · exact h2 ⟨hi, h⟩
          · exact h1 ⟨hi, rfl⟩)]

/-- Successful-run characterization of the division phase of
`calculate_log_probability`. -/
theorem calc_quot_eq (counts : Mat ℚ) (priors genus_counts : List ℚ)
    (hp : counts.nrow ≤ priors.length) (hg : counts.ncol ≤ genus_counts.length)
    (hrep : ∀ j, j < counts.ncol → ∃ d, denomAt genus_counts j = .ok d) :
    calc_quot counts priors genus_counts =
      .ok ⟨counts.nrow, counts.ncol, fun i j =>
        if i < counts.nrow ∧ j < counts.ncol then
          fullCell counts priors genus_counts i j
        else .val 0⟩ := by
  rw [calc_quot, outer_run counts priors genus_counts hp counts.ncol le_rfl hg hrep]
  rfl

/-- Row-major inner loop (over columns, for a fixed row `i`): writes the
per-cell quotient into columns `0, ..., n-1` of row `i`. -/
theorem rowCell_run (counts : Mat ℚ) (priors genus_counts : List ℚ) (i : Nat)
    (hi : i < counts.nrow) (hip : i < priors.length) :
    ∀ n : Nat, n ≤ counts.ncol → n ≤ genus_counts.length →
      (∀ j, j < n → ∃ d, denomAt genus_counts j = .ok d) →
      ∀ acc : Mat DivResult,
      iterUp (rowCellBody counts priors genus_counts i) n acc =
        .ok { acc with data := fun i' j' =>
          (if i' = i ∧ j' < n then
            fullCell counts priors genus_counts i' j'
          else acc.data i' j') } := by
  intro n
  induction n with
  | zero =>
    intro _ _ _ acc
    rw [iterUp_zero]
    refine congrArg Except.ok (Mat.eq_of_data _ _ rfl rfl ?_)
    intro i' j'
    simp
  | succ n ih =>
    intro hn hg hrep acc
    obtain ⟨d, hd⟩ := hrep n (by omega)
    have hdval : denomVal genus_counts n = d := by
      rw [denomVal, hd]
      rfl
    rw [iterUp_succ, ih (by omega) (by omega)
      (fun j hj => hrep j (by omega)) acc, ok_bind, rowCellBody,
      vget_ok genus_counts n (by omega), ok_bind]
    rw [show smoothingDenomOfTotal (genus_counts.getD n 0) = .ok d from hd,
      ok_bind, mget_ok counts i n hi (by omega), ok_bind,
      vget_ok priors i hip, ok_bind]
    refine congrArg Except.ok (Mat.eq_of_data _ _ rfl rfl ?_)
    intro i' j'
    show (if i' = i ∧ j' = n then
        ddiv (counts.data i n + priors.getD i 0) ((d : ℚ))
      else if i' = i ∧ j' < n then
        fullCell counts priors genus_counts i' j'
      else acc.data i' j') =
      (if i' = i ∧ j' < n + 1 then
        fullCell counts priors genus_counts i' j'
      else acc.data i' j')
    by_cases h1 : i' = i ∧ j' = n
    · obtain ⟨rfl, rfl⟩ := h1
      rw [if_pos ⟨rfl, rfl⟩, if_pos ⟨rfl, Nat.lt_succ_self j'⟩, fullCell, hdval]
    · rw [if_neg h1]
      by_cases h2 : i' = i ∧ j' < n
      · rw [if_pos h2, if_pos ⟨h2.1, Nat.lt_succ_of_lt h2.2⟩]
      · rw [if_neg h2, if_neg (by
          rintro ⟨rfl, hj'⟩
          rcases Nat.lt_succ_iff_lt_or_eq.mp hj' with h | rfl
          · exact h2 ⟨rfl, h⟩
          · exact h1 ⟨rfl, rfl⟩)]

/-- Row-major outer loop (over rows): fills all cells of rows
`0, ..., K-1`. -/
theorem row_outer_run (counts : Mat ℚ) (priors genus_counts : List ℚ)
    (hg : counts.ncol ≤ genus_counts.length)
    (hrep : ∀ j, j < counts.ncol → ∃ d, denomAt genus_counts j = .ok d) :
    ∀ K : Nat, K ≤ counts.nrow → K ≤ priors.length →
      ∀ acc : Mat DivResult,
      iterUp (rowBody counts priors genus_counts) K acc =
        .ok { acc with data := fun i' j' =>
          (if i' < K ∧ j' < counts.ncol then
            fullCell counts priors genus_counts i' j'
          else acc.data i' j') } := by
  intro K
  induction K with
  | zero =>
    intro _ _ acc
    rw [iterUp_zero]
    refine congrArg Except.ok (Mat.eq_of_data _ _ rfl rfl ?_)
    intro i' j'
    simp
  | succ n ih =>
    intro hn hp acc
    rw [iterUp_succ, ih (by omega) (by omega) acc, ok_bind, rowBody,
      rowCell_run counts priors genus_counts n (by omega) (by omega)
        counts.ncol le_rfl hg hrep]
    refine congrArg Except.ok (Mat.eq_of_data _ _ rfl rfl ?_)
    intro i' j'
    show (if i' = n ∧ j' < counts.ncol then
        fullCell counts priors genus_counts i' j'
      else if i' < n ∧ j' < counts.ncol then
        fullCell counts priors genus_counts i' j'
      else acc.data i' j') =
      (if i' < n + 1 ∧ j' < counts.ncol then
        fullCell counts priors genus_counts i' j'
      else acc.data i' j')
    by_cases h1 : i' = n ∧ j' < counts.ncol
    · obtain ⟨rfl, hj'⟩ := h1
      rw [if_pos ⟨rfl, hj'⟩, if_pos ⟨Nat.lt_succ_self i', hj'⟩]
    · rw [if_neg h1]
      by_cases h2 : i' < n ∧ j' < counts.ncol
      · rw [if_pos h2, if_pos ⟨Nat.lt_succ_of_lt h2.1, h2.2⟩]
      · rw [if_neg h2, if_neg (by
          rintro ⟨hlt, hj'⟩
          rcases Nat.lt_succ_iff_lt_or_eq.mp hlt with h | rfl
          · exact h2 ⟨h, hj'⟩
          · exact h1 ⟨rfl, hj'⟩)]

/-- Successful-run characterization of the row-major variant: the same
matrix as the column-major run. -/
theorem calc_quot_rowMajor_eq (counts : Mat ℚ) (priors genus_counts : List ℚ)
    (hp : counts.nrow ≤ priors.length) (hg : counts.ncol ≤ genus_counts.length)
    (hrep : ∀ j, j < counts.ncol → ∃ d, denomAt genus_counts j = .ok d) :
    calc_quot_rowMajor counts priors genus_counts =
      .ok ⟨counts.nrow, counts.ncol, fun i j =>
        if i < counts.nrow ∧ j < counts.ncol then
          fullCell counts priors genus_counts i j
        else .val 0⟩ := by
  rw [calc_quot_rowMajor,
    row_outer_run counts priors genus_counts hg hrep counts.nrow le_rfl hp]
  rfl

/-! ### Shape preservation and absence of out-of-bounds accesses -/

theorem except_map_error (f : α → β) (e : EvalErr) :
    (Except.error e : Except EvalErr α).map f = .error e := rfl

theorem except_map_ok_inv (f : α → β) (x : Except EvalErr α) (b : β)
    (h : x.map f = .ok b) : ∃ a, x = .ok a ∧ f a = b := by
  cases x with
  | error e => simp [Except.map] at h
  | ok a =>
    refine ⟨a, rfl, ?_⟩
    simpa [Except.map] using h

theorem except_map_error_inv (f : α → β) (x : Except EvalErr α) (e : EvalErr)
    (h : x.map f = .error e) : x = .error e := by
  cases x with
  | error e' => simpa [Except.map] using h
  | ok a => simp [Except.map] at h

/-- Any loop whose body preserves matrix dimensions preserves them. -/
theorem iterUp_dims (f : Nat → Mat DivResult → Except EvalErr (Mat DivResult))
    (hf : ∀ n s s', f n s = .ok s' → s'.nrow = s.nrow ∧ s'.ncol = s.ncol) :
    ∀ n s s', iterUp f n s = .ok s' → s'.nrow = s.nrow ∧ s'.ncol = s.ncol := by
  intro n
  induction n with
  | zero =>
    intro s s' h
    rw [iterUp_zero] at h
    cases h
    exact ⟨rfl, rfl⟩
  | succ n ih =>
    intro s s' h
    rw [iterUp_succ] at h
    cases hm : iterUp f n s with
    | error e =>
      rw [hm, error_bind] at h
      cases h
    | ok m =>
      rw [hm, ok_bind] at h
      have h1 := ih s m hm
      have h2 := hf n m s' h
      exact ⟨h2.1.trans h1.1, h2.2.trans h1.2⟩

theorem innerBody_dims (counts : Mat ℚ) (priors : List ℚ) (g1 : Int) (j : Nat) :
    ∀ i s s', innerBody counts priors g1 j i s = .ok s' →
      s'.nrow = s.nrow ∧ s'.ncol = s.ncol := by
  intro i s s' h
  rw [innerBody] at h
  cases hc : mget counts i j with
  | error e =>
    rw [hc, error_bind] at h
    cases h
  | ok c =>
    rw [hc, ok_bind] at h
    cases hpv : vget priors i with
    | error e =>
      rw [hpv, error_bind] at h
      cases h
    | ok p =>
      rw [hpv, ok_bind] at h
      cases h
      exact ⟨rfl, rfl⟩

theorem colBody_dims (counts : Mat ℚ) (priors genus_counts : List ℚ) :
    ∀ j s s', colBody counts priors genus_counts j s = .ok s' →
      s'.nrow = s.nrow ∧ s'.ncol = s.ncol := by
  intro j s s' h
  rw [colBody] at h
  cases hg : vget genus_counts j with
  | error e =>
    rw [hg, error_bind] at h
    cases h
  | ok g =>
    rw [hg, ok_bind] at h
    cases hd : smoothingDenomOfTotal g with
    | error e =>
      rw [hd, error_bind] at h
      cases h
    | ok d =>
      rw [hd, ok_bind] at h
      exact iterUp_dims _ (innerBody_dims counts priors d j) counts.nrow s s' h

/-- Whatever the inputs, a successful division phase returns a matrix of the
input matrix's shape. -/
theorem calc_quot_dims (counts : Mat ℚ) (priors genus_counts : List ℚ)
    (m : Mat DivResult) (h : calc_quot counts priors genus_counts = .ok m) :
    m.nrow = counts.nrow ∧ m.ncol = counts.ncol := by
  rw [calc_quot] at h
  exact iterUp_dims _ (colBody_dims counts priors genus_counts)
    counts.ncol _ m h

theorem smoothingDenom_error (g : ℚ) (e : EvalErr)
    (h : smoothingDenomOfTotal g = .error e) : e = .intOverflow := by
  rw [smoothingDenomOfTotal] at h
  exact double2int_error _ _ h

/-- With both vectors long enough, the outer loop either succeeds or stops
with the conversion-overflow error — never with an out-of-bounds access. -/
theorem outer_no_oob (counts : Mat ℚ) (priors genus_counts : List ℚ)
    (hp : counts.nrow ≤ priors.length) :
    ∀ n : Nat, n ≤ counts.ncol → n ≤ genus_counts.length →
      ∀ acc : Mat DivResult,
      (∃ m, iterUp (colBody counts priors genus_counts) n acc = .ok m) ∨
        iterUp (colBody counts priors genus_counts) n acc =
          .error .intOverflow := by
  intro n
  induction n with
  | zero =>
    intro _ _ acc
    exact Or.inl ⟨acc, rfl⟩
  | succ n ih =>
    intro hn hg acc
    rcases ih (by omega) (by omega) acc with ⟨m, hm⟩ | herr
    · rw [iterUp_succ, hm, ok_bind, colBody,
        vget_ok genus_counts n (by omega), ok_bind]
      cases hd : smoothingDenomOfTotal (genus_counts.getD n 0) with
      | error e =>
        rw [error_bind, smoothingDenom_error _ _ hd]
        exact Or.inr rfl
      | ok d =>
        rw [ok_bind, inner_run counts priors d n (by omega) counts.nrow
          le_rfl hp]
        exact Or.inl ⟨_, rfl⟩
    · rw [iterUp_succ, herr, error_bind]
      exact Or.inr rfl

/-- Under matching lengths the division phase never reports an
out-of-bounds access. -/
theorem calc_quot_no_oob (counts : Mat ℚ) (priors genus_counts : List ℚ)
    (hp : counts.nrow ≤ priors.length)
    (hg : counts.ncol ≤ genus_counts.length) :
    calc_quot counts priors genus_counts ≠ .error .oobAccess := by
  rcases outer_no_oob counts priors genus_counts hp counts.ncol le_rfl hg
    (newMat counts.nrow counts.ncol) with ⟨m, hm⟩ | herr
  · rw [calc_quot, hm]
    simp
  · rw [calc_quot, herr]
    simp

/-! ### Arithmetic helper lemmas -/

theorem getD_nonneg (v : List ℚ) (hv : ∀ p ∈ v, 0 ≤ p) (i : Nat) :
    0 ≤ v.getD i 0 := by
  rw [List.getD_eq_get?]
  cases hq : v.get? i with
  | none => simp
  | some x =>
    simp only [Option.getD_some]
    exact hv x (List.get?_mem hq)

theorem dlog_val (q : ℚ) :
    dlog (.val q) =
      if 0 < q then .real (Real.log q)
      else if q = 0 then .negInf else .nan := rfl

theorem smoothing_in_range (g : ℚ) (h1 : intMin ≤ ratTrunc (g + 1))
    (h2 : ratTrunc (g + 1) ≤ intMax) :
    smoothingDenomOfTotal g = .ok (ratTrunc (g + 1)) := by
  rw [smoothingDenomOfTotal, double2int, if_pos ⟨h1, h2⟩]

theorem smoothing_overflow (g : ℚ) (hge : (2147483647 : ℚ) ≤ g) :
    smoothingDenomOfTotal g = .error .intOverflow := by
  rw [smoothingDenomOfTotal, double2int, if_neg]
  rintro ⟨-, h2⟩
  have hnn : (0:ℚ) ≤ g + 1 := by
    have : (0:ℚ) ≤ (2147483647 : ℚ) := by norm_num
    linarith
  rw [ratTrunc_eq_floor _ hnn] at h2
  have hfl : (2147483648 : Int) ≤ ⌊g + 1⌋ := by
    apply Int.le_floor.mpr
    push_cast
    linarith
  rw [intMax] at h2
  omega

theorem ratTrunc_eq_zero_iff (x : ℚ) : ratTrunc x = 0 ↔ (-1 < x ∧ x < 1) := by
  by_cases h : 0 ≤ x
  · rw [ratTrunc_eq_floor x h, Int.floor_eq_iff]
    constructor
    · rintro ⟨h1, h2⟩
      push_cast at h2
      exact ⟨by linarith, by linarith⟩
    · rintro ⟨-, h2⟩
      push_cast
      exact ⟨by exact_mod_cast h, by exact_mod_cast h2⟩
  · rw [ratTrunc_eq_ceil x h, Int.ceil_eq_iff]
    push_neg at h
    constructor
    · rintro ⟨h1, h2⟩
      push_cast at h1
      exact ⟨by linarith, by linarith⟩
    · rintro ⟨h1, -⟩
      push_cast
      exact ⟨by linarith, by linarith⟩

/-- The denominator is zero exactly on the open interval `(-2, 0)` of genus
totals. -/
theorem smoothing_zero_iff (g : ℚ) :
    smoothingDenomOfTotal g = .ok 0 ↔ (-2 < g ∧ g < 0) := by
  rw [smoothingDenomOfTotal, double2int]
  constructor
  · intro h
    split at h
    · have h0 : ratTrunc (g + 1) = 0 := by
        have := (Except.ok.injEq _ _).mp h
        exact this
      have := (ratTrunc_eq_zero_iff (g + 1)).mp h0
      exact ⟨by linarith [this.1], by linarith [this.2]⟩
    · exact absurd h (by simp)
  · rintro ⟨h1, h2⟩
    have h0 : ratTrunc (g + 1) = 0 :=
      (ratTrunc_eq_zero_iff (g + 1)).mpr ⟨by linarith, by linarith⟩
    rw [h0, if_pos]
    rw [intMin, intMax]
    omega

theorem dlog_ddiv_zero_special (num : ℚ) : (dlog (ddiv num 0)).isSpecial := by
  rw [ddiv, if_pos rfl]
  by_cases h1 : 0 < num
  · rw [if_pos h1]
    exact trivial
  · rw [if_neg h1]
    by_cases h2 : num < 0
    · rw [if_pos h2]
      exact trivial
    · rw [if_neg h2]
      exact trivial

/-- The congruence rule for `iterUp` with pointwise-equal bodies. -/
theorem iterUp_congr (f g : Nat → σ → Except EvalErr σ)
    (h : ∀ n s, f n s = g n s) : ∀ n s, iterUp f n s = iterUp g n s := by
  intro n
  induction n with
  | zero => intro s; rfl
  | succ n ih =>
    intro s
    rw [iterUp_succ, iterUp_succ, ih s]
    cases iterUp g n s with
    | error e => rw [error_bind, error_bind]
    | ok m => rw [ok_bind, ok_bind, h n m]

/-! ### Concrete inputs used by the witnesses -/

/-- The §8 scenario count matrix `[[2,0],[1,3]]`. -/
def scnCounts : Mat ℚ :=
  ⟨2, 2, fun i j => if i = 0 then (if j = 0 then 2 else 0)
    else (if j = 0 then 1 else 3)⟩

/-- The §8 scenario priors `[0.5, 0.5]`. -/
def scnPriors : List ℚ := [1/2, 1/2]

/-- The §8 scenario genus totals `[4, 9]`. -/
def scnTotals : List ℚ := [4, 9]

theorem smoothing_four : smoothingDenomOfTotal 4 = .ok 5 := by
  have hfl : ⌊(4:ℚ)⌋ = 4 := by
    rw [Int.floor_eq_iff]
    norm_num
  rw [smoothingDenom_nonneg 4 (by norm_num) (by rw [hfl]; rw [intMax]; omega), hfl]
  norm_num

theorem smoothing_nine : smoothingDenomOfTotal 9 = .ok 10 := by
  have hfl : ⌊(9:ℚ)⌋ = 9 := by
    rw [Int.floor_eq_iff]
    norm_num
  rw [smoothingDenom_nonneg 9 (by norm_num) (by rw [hfl]; rw [intMax]; omega), hfl]
  norm_num

theorem scn_rep : ∀ j, j < 2 → ∃ d, denomAt scnTotals j = .ok d := by
  intro j hj
  interval_cases j
  · exact ⟨5, by rw [denomAt]; exact smoothing_four⟩
  · exact ⟨10, by rw [denomAt]; exact smoothing_nine⟩

/-! ### Claims -/

/-- C1 (amended): under the spec's preconditions (matching lengths, finite
non-negative entries) *and* the additional precondition that each converted
denominator stays within 32-bit `int` range, `calculate_log_probability`
returns a matrix whose entry `(i, j)` equals
`ln((counts[i][j] + priors[i]) / (⌊genusTotals[j]⌋ + 1))`, with `ln 0 = -∞`.
The range precondition is forced by `C1_counterexample`. -/
theorem C1_formula (counts : Mat ℚ) (priors genus_counts : List ℚ)
    (hp : priors.length = counts.nrow)
    (hg : genus_counts.length = counts.ncol)
    (hcnn : ∀ i j, i < counts.nrow → j < counts.ncol → 0 ≤ counts.data i j)
    (hpnn : ∀ p ∈ priors, 0 ≤ p) (hgnn : ∀ g ∈ genus_counts, 0 ≤ g)
    (hrep : ∀ j, j < counts.ncol → ⌊genus_counts.getD j 0⌋ + 1 ≤ intMax) :
    ∃ out, calculate_log_probability counts priors genus_counts = .ok out ∧
      ∀ i j, i < counts.nrow → j < counts.ncol →
        out.data i j =
          specCell (counts.data i j) (priors.getD i 0)
            (genus_counts.getD j 0) := by
  have hrep' : ∀ j, j < counts.ncol → ∃ d, denomAt genus_counts j = .ok d := by
    intro j hj
    exact ⟨⌊genus_counts.getD j 0⌋ + 1, by
      rw [denomAt]
      exact smoothingDenom_nonneg _ (getD_nonneg _ hgnn j) (hrep j hj)⟩
  have hq := calc_quot_eq counts priors genus_counts (by omega) (by omega) hrep'
  refine ⟨Mat.map dlog ⟨counts.nrow, counts.ncol, fun i j =>
      if i < counts.nrow ∧ j < counts.ncol then
        fullCell counts priors genus_counts i j
      else .val 0⟩, ?_, ?_⟩
  · rw [calculate_log_probability, hq]
    rfl
  · intro i j hi hj
    show dlog (if i < counts.nrow ∧ j < counts.ncol then
      fullCell counts priors genus_counts i j else .val 0) = _
    rw [if_pos ⟨hi, hj⟩, fullCell]
    have hgnn' : (0:ℚ) ≤ genus_counts.getD j 0 := getD_nonneg _ hgnn j
    have hd : denomAt genus_counts j = .ok (⌊genus_counts.getD j 0⌋ + 1) := by
      rw [denomAt]
      exact smoothingDenom_nonneg _ hgnn' (hrep j hj)
    have hdv : denomVal genus_counts j = ⌊genus_counts.getD j 0⌋ + 1 := by
      rw [denomVal, hd]
      rfl
    rw [hdv]
    have hc : 0 ≤ counts.data i j := hcnn i j hi hj
    have hpr : 0 ≤ priors.getD i 0 := getD_nonneg _ hpnn i
    have hfl0 : (0:Int) ≤ ⌊genus_counts.getD j 0⌋ := Int.floor_nonneg.mpr hgnn'
    have hden : (0:ℚ) < ((⌊genus_counts.getD j 0⌋ + 1 : Int) : ℚ) :=
      mod_cast (by omega : (0:Int) < ⌊genus_counts.getD j 0⌋ + 1)
    have hcast : ((⌊genus_counts.getD j 0⌋ + 1 : Int) : ℚ) =
        ((⌊genus_counts.getD j 0⌋ : Int) : ℚ) + 1 := by
      push_cast
      ring
    rw [ddiv, if_neg (ne_of_gt hden), dlog_val, specCell]
    rcases eq_or_lt_of_le (add_nonneg hc hpr) with hz | hpos
    · rw [← hz, zero_div]
      norm_num
    · have hne : counts.data i j + priors.getD i 0 ≠ 0 := ne_of_gt hpos
      rw [if_neg hne, if_pos (div_pos hpos hden), hcast]
      congr 1
      push_cast
      ring

/-- C1 counterexample: the input `counts = [[0]]`, `priors = [0]`,
`genusTotals = [2^31]` satisfies the spec's §4.1 preconditions (matching
lengths, finite non-negative entries), yet the double→int conversion of
`genusTotals[0] + 1` leaves the 32-bit range, so the run aborts instead of
returning the formula matrix. -/
theorem C1_counterexample :
    calculate_log_probability ⟨1, 1, fun _ _ => 0⟩ [0] [2147483648] =
      .error .intOverflow := by
  have h : calc_quot ⟨1, 1, fun _ _ => 0⟩ [0] [2147483648] =
      .error .intOverflow := by
    show iterUp (colBody ⟨1, 1, fun _ _ => 0⟩ [0] [2147483648]) 1 (newMat 1 1) =
      .error .intOverflow
    rw [iterUp_succ, iterUp_zero, ok_bind, colBody,
      show vget [(2147483648 : ℚ)] 0 = .ok 2147483648 from rfl, ok_bind,
      smoothing_overflow 2147483648 (by norm_num), error_bind]
  rw [calculate_log_probability, h, except_map_error]

/-- C1 witness: the §8 scenario.  `counts = [[2,0],[1,3]]`,
`priors = [0.5, 0.5]`, `genusTotals = [4, 9]` give the output matrix
`[[ln 0.5, ln 0.05], [ln 0.3, ln 0.35]]`. -/
theorem C1_formula_witness :
    ∃ out, calculate_log_probability scnCounts scnPriors scnTotals = .ok out ∧
      out.data 0 0 = .real (Real.log (1/2)) ∧
      out.data 0 1 = .real (Real.log (1/20)) ∧
      out.data 1 0 = .real (Real.log (3/10)) ∧
      out.data 1 1 = .real (Real.log (7/20)) := by
  have hfl4 : ⌊(4:ℚ)⌋ = 4 := by
    rw [Int.floor_eq_iff]
    norm_num
  have hfl9 : ⌊(9:ℚ)⌋ = 9 := by
    rw [Int.floor_eq_iff]
    norm_num
  obtain ⟨out, hout, hcell⟩ := C1_formula scnCounts scnPriors scnTotals
    (by decide) (by decide)
    (by
      intro i j hi hj
      show (0:ℚ) ≤ scnCounts.data i j
      rw [scnCounts]
      dsimp only
      split_ifs <;> norm_num)
    (by
      intro p hp
      have : p = 1/2 := by simpa [scnPriors] using hp
      rw [this]
      norm_num)
    (by
      intro g hg
      rw [scnTotals] at hg
      rcases List.mem_cons.mp hg with rfl | hg'
      · norm_num
      · rcases List.mem_cons.mp hg' with rfl | hg''
        · norm_num
        · exact absurd hg'' (List.not_mem_nil g))
    (by
      intro j hj
      have hj2 : j < 2 := hj
      interval_cases j
      · show ⌊(4:ℚ)⌋ + 1 ≤ intMax
        rw [hfl4, intMax]
        omega
      · show ⌊(9:ℚ)⌋ + 1 ≤ intMax
        rw [hfl9, intMax]
        omega)
  refine ⟨out, hout, ?_, ?_, ?_, ?_⟩
  · rw [hcell 0 0 (by decide) (by decide)]
    show specCell 2 (1/2) 4 = _
    rw [specCell, if_neg (by norm_num), hfl4]
    congr 1
    push_cast
    norm_num
  · rw [hcell 0 1 (by decide) (by decide)]
    show specCell 0 (1/2) 9 = _
    rw [specCell, if_neg (by norm_num), hfl9]
    congr 1
    push_cast
    norm_num
  · rw [hcell 1 0 (by decide) (by decide)]
    show specCell 1 (1/2) 4 = _
    rw [specCell, if_neg (by norm_num), hfl4]
    congr 1
    push_cast
    norm_num
  · rw [hcell 1 1 (by decide) (by decide)]
    show specCell 3 (1/2) 9 = _
    rw [specCell, if_neg (by norm_num), hfl9]
    congr 1
    push_cast
    norm_num

/-- C2: whenever `calculate_log_probability` returns a matrix, that matrix
has exactly the row and column counts of the input counts matrix. -/
theorem C2_shape (counts : Mat ℚ) (priors genus_counts : List ℚ)
    (out : Mat LogVal)
    (h : calculate_log_probability counts priors genus_counts = .ok out) :
    out.nrow = counts.nrow ∧ out.ncol = counts.ncol := by
  obtain ⟨q, hq, hmap⟩ := except_map_ok_inv _ _ _ h
  have hd := calc_quot_dims _ _ _ _ hq
  rw [← hmap]
  exact hd

/-- C2 witness: the scenario run returns a 2×2 matrix. -/
theorem C2_shape_witness :
    ∃ out, calculate_log_probability scnCounts scnPriors scnTotals = .ok out ∧
      out.nrow = 2 ∧ out.ncol = 2 := by
  have hq := calc_quot_eq scnCounts scnPriors scnTotals (by decide) (by decide)
    scn_rep
  have hok : calculate_log_probability scnCounts scnPriors scnTotals =
      .ok (Mat.map dlog ⟨2, 2, fun i j =>
        if i < 2 ∧ j < 2 then fullCell scnCounts scnPriors scnTotals i j
        else .val 0⟩) := by
    rw [calculate_log_probability, hq]
    rfl
  exact ⟨_, hok, C2_shape scnCounts scnPriors scnTotals _ hok⟩

/-- C3 counterexample: at genus total `-0.5` the smoothing denominator the
code computes is `trunc(-0.5 + 1) = 0`, whereas the claimed
`trunc(-0.5) + 1` is `1`. -/
theorem C3_counterexample :
    smoothingDenomOfTotal (-1/2) = .ok 0 ∧ ratTrunc (-1/2) + 1 = 1 := by
  constructor
  · exact (smoothing_zero_iff (-1/2)).mpr (by norm_num)
  · have h : ratTrunc (-1/2 : ℚ) = 0 :=
      (ratTrunc_eq_zero_iff (-1/2 : ℚ)).mpr (by norm_num)
    rw [h]
    decide

/-- C3 (amended): for *non-negative* genus totals whose conversion stays in
`int` range, the smoothing denominator equals `trunc(genusTotals[j]) + 1`,
and this equals `⌊genusTotals[j]⌋ + 1`.  For negative fractional totals the
code computes `trunc(g + 1)` instead, which can differ
(`C3_counterexample`). -/
theorem C3_denominator (g : ℚ) (hg : 0 ≤ g) (hub : ratTrunc g + 1 ≤ intMax) :
    smoothingDenomOfTotal g = .ok (ratTrunc g + 1) ∧
      ratTrunc g + 1 = ⌊g⌋ + 1 := by
  have hf : ratTrunc g = ⌊g⌋ := ratTrunc_eq_floor g hg
  rw [hf]
  rw [hf] at hub
  exact ⟨smoothingDenom_nonneg g hg hub, rfl⟩

/-- C3 witness: the spec's own example `genusTotals[j] = 4.9` gives
denominator `5`, and `trunc(4.9) + 1 = ⌊4.9⌋ + 1 = 5`. -/
theorem C3_denominator_witness :
    smoothingDenomOfTotal (49/10) = .ok 5 ∧ ratTrunc (49/10 : ℚ) + 1 = 5 ∧
      ⌊(49/10 : ℚ)⌋ + 1 = 5 := by
  have hfl : ⌊(49/10 : ℚ)⌋ = 4 := by
    rw [Int.floor_eq_iff]
    norm_num
  have htr : ratTrunc (49/10 : ℚ) = 4 := by
    rw [ratTrunc_eq_floor _ (by norm_num), hfl]
  have h := C3_denominator (49/10) (by norm_num) (by rw [htr, intMax]; omega)
  refine ⟨?_, by rw [htr]; decide, by rw [hfl]; decide⟩
  rw [h.1, htr]
  norm_num

/-- C4: with `priors` of length K and `genusTotals` of length G, no access
of the run ever leaves the bounds of `counts`, `priors` or `genusTotals`:
the out-of-bounds branch of the checked indexing is unreachable. -/
theorem C4_no_oob (counts : Mat ℚ) (priors genus_counts : List ℚ)
    (hp : priors.length = counts.nrow)
    (hg : genus_counts.length = counts.ncol) :
    calculate_log_probability counts priors genus_counts ≠
      .error .oobAccess := by
  intro h
  have hq := except_map_error_inv _ _ _ h
  exact calc_quot_no_oob counts priors genus_counts (by omega) (by omega) hq

/-- C4 witness: the scenario run performs no out-of-bounds access. -/
theorem C4_no_oob_witness :
    calculate_log_probability scnCounts scnPriors scnTotals ≠
      .error .oobAccess :=
  C4_no_oob scnCounts scnPriors scnTotals (by decide) (by decide)

/-- C5 counterexample: at genus total `-1.5` the smoothing denominator is
`0` although `⌊-1.5⌋ = -2 ≠ -1`, refuting the claimed equivalence
`denom_j = 0 ↔ ⌊genusTotals[j]⌋ = -1`. -/
theorem C5_counterexample :
    smoothingDenomOfTotal (-3/2) = .ok 0 ∧ ⌊(-3/2 : ℚ)⌋ ≠ -1 := by
  constructor
  · exact (smoothing_zero_iff (-3/2)).mpr (by norm_num)
  · have h : ⌊(-3/2 : ℚ)⌋ = -2 := by
      rw [Int.floor_eq_iff]
      norm_num
    rw [h]
    omega

/-- C5 (amended): the smoothing denominator is `0` exactly when
`-2 < genusTotals[j] < 0` (so only for a negative total, but not only at
`⌊genusTotals[j]⌋ = -1`, see `C5_counterexample`); in that case the division
by zero is not trapped: the run still returns a matrix and the affected
column holds IEEE special values (`±∞`/NaN), not finite reals. -/
theorem C5_denom_zero :
    (∀ g : ℚ, smoothingDenomOfTotal g = .ok 0 ↔ (-2 < g ∧ g < 0)) ∧
    (∀ counts : Mat ℚ, ∀ priors genus_counts : List ℚ, ∀ j : Nat,
      priors.length = counts.nrow → genus_counts.length = counts.ncol →
      j < counts.ncol →
      (∀ j', j' < counts.ncol → ∃ d, denomAt genus_counts j' = .ok d) →
      denomAt genus_counts j = .ok 0 →
      ∃ out, calculate_log_probability counts priors genus_counts = .ok out ∧
        ∀ i, i < counts.nrow → (out.data i j).isSpecial) := by
  constructor
  · exact smoothing_zero_iff
  · intro counts priors genus_counts j hp hg hj hrep hd0
    have hq := calc_quot_eq counts priors genus_counts (by omega) (by omega)
      hrep
    refine ⟨Mat.map dlog ⟨counts.nrow, counts.ncol, fun i j =>
        if i < counts.nrow ∧ j < counts.ncol then
          fullCell counts priors genus_counts i j
        else .val 0⟩, ?_, ?_⟩
    · rw [calculate_log_probability, hq]
      rfl
    · intro i hi
      show (dlog (if i < counts.nrow ∧ j < counts.ncol then
        fullCell counts priors genus_counts i j else .val 0)).isSpecial
      rw [if_pos ⟨hi, hj⟩, fullCell]
      have hdv : denomVal genus_counts j = 0 := by
        rw [denomVal, hd0]
        rfl
      rw [hdv]
      exact dlog_ddiv_zero_special _

/-- C5 witness: total `-0.5` gives denominator `0`, and the run
`counts = [[1]]`, `priors = [0]`, `genusTotals = [-0.5]` returns a matrix
whose only entry is an IEEE special value. -/
theorem C5_denom_zero_witness :
    smoothingDenomOfTotal (-1/2) = .ok 0 ∧
    (∃ out, calculate_log_probability ⟨1, 1, fun _ _ => 1⟩ [0] [-1/2] =
      .ok out ∧ (out.data 0 0).isSpecial) := by
  have hden : denomAt [(-1/2 : ℚ)] 0 = .ok 0 := by
    show smoothingDenomOfTotal (-1/2) = .ok 0
    exact (C5_denom_zero.1 (-1/2)).mpr (by norm_num)
  refine ⟨(C5_denom_zero.1 (-1/2)).mpr (by norm_num), ?_⟩
  obtain ⟨out, hout, hsp⟩ := C5_denom_zero.2 ⟨1, 1, fun _ _ => 1⟩ [0] [-1/2]
    0 rfl rfl (by norm_num)
    (by
      intro j' hj'
      have hj2 : j' < 1 := hj'
      interval_cases j'
      · exact ⟨0, hden⟩)
    hden
  exact ⟨out, hout, hsp 0 (by norm_num)⟩

/-- C6 counterexample: with `counts = [[0]]`, `priors = [0]` and
`genusTotals = [-0.5]` the cell numerator is `0`, but the entry is NaN
(`0/0`, then `log NaN`), not negative infinity. -/
theorem C6_counterexample :
    ∃ out, calculate_log_probability ⟨1, 1, fun _ _ => 0⟩ [0] [-1/2] =
      .ok out ∧ out.data 0 0 = .nan ∧ out.data 0 0 ≠ .negInf := by
  have hden : denomAt [(-1/2 : ℚ)] 0 = .ok 0 := by
    show smoothingDenomOfTotal (-1/2) = .ok 0
    exact (smoothing_zero_iff (-1/2)).mpr (by norm_num)
  have hrep : ∀ j', j' < (1:Nat) → ∃ d, denomAt [(-1/2 : ℚ)] j' = .ok d := by
    intro j' hj'
    interval_cases j'
    · exact ⟨0, hden⟩
  have hq := calc_quot_eq ⟨1, 1, fun _ _ => 0⟩ [0] [-1/2] (by norm_num)
    (by norm_num) hrep
  refine ⟨Mat.map dlog ⟨1, 1, fun i j =>
      if i < 1 ∧ j < 1 then fullCell ⟨1, 1, fun _ _ => 0⟩ [0] [-1/2] i j
      else .val 0⟩, ?_, ?_, ?_⟩
  · rw [calculate_log_probability, hq]
    rfl
  · show dlog (if (0:Nat) < 1 ∧ (0:Nat) < 1 then
      fullCell ⟨1, 1, fun _ _ => 0⟩ [0] [-1/2] 0 0 else .val 0) = .nan
    rw [if_pos ⟨Nat.one_pos, Nat.one_pos⟩, fullCell]
    have hdv : denomVal [(-1/2 : ℚ)] 0 = 0 := by
      rw [denomVal, hden]
      rfl
    rw [hdv]
    show dlog (ddiv ((0:ℚ) + 0) 0) = .nan
    rw [show ((0:ℚ) + 0) = 0 by norm_num, ddiv, if_pos rfl,
      if_neg (by norm_num), if_neg (by norm_num)]
    rfl
  · show dlog (if (0:Nat) < 1 ∧ (0:Nat) < 1 then
      fullCell ⟨1, 1, fun _ _ => 0⟩ [0] [-1/2] 0 0 else .val 0) ≠ .negInf
    rw [if_pos ⟨Nat.one_pos, Nat.one_pos⟩, fullCell]
    have hdv : denomVal [(-1/2 : ℚ)] 0 = 0 := by
      rw [denomVal, hden]
      rfl
    rw [hdv]
    show dlog (ddiv ((0:ℚ) + 0) 0) ≠ .negInf
    rw [show ((0:ℚ) + 0) = 0 by norm_num, ddiv, if_pos rfl,
      if_neg (by norm_num), if_neg (by norm_num)]
    intro hc
    exact LogVal.noConfusion hc

/-- C6 (amended): if the cell numerator `counts[i][j] + priors[i]` is `0`
*and* the column's smoothing denominator is non-zero, the output entry is
negative infinity and no error is raised.  (When the denominator is also
`0`, the entry is NaN instead — `C6_counterexample`.) -/
theorem C6_zero_numerator (counts : Mat ℚ) (priors genus_counts : List ℚ)
    (i j : Nat) (d : Int)
    (hp : priors.length = counts.nrow)
    (hg : genus_counts.length = counts.ncol)
    (hi : i < counts.nrow) (hj : j < counts.ncol)
    (hrep : ∀ j', j' < counts.ncol → ∃ d', denomAt genus_counts j' = .ok d')
    (hd : denomAt genus_counts j = .ok d) (hdnz : d ≠ 0)
    (hzero : counts.data i j + priors.getD i 0 = 0) :
    ∃ out, calculate_log_probability counts priors genus_counts = .ok out ∧
      out.data i j = .negInf := by
  have hq := calc_quot_eq counts priors genus_counts (by omega) (by omega) hrep
  refine ⟨Mat.map dlog ⟨counts.nrow, counts.ncol, fun i j =>
      if i < counts.nrow ∧ j < counts.ncol then
        fullCell counts priors genus_counts i j
      else .val 0⟩, ?_, ?_⟩
  · rw [calculate_log_probability, hq]
    rfl
  · show dlog (if i < counts.nrow ∧ j < counts.ncol then
      fullCell counts priors genus_counts i j else .val 0) = .negInf
    rw [if_pos ⟨hi, hj⟩, fullCell, hzero]
    have hdv : denomVal genus_counts j = d := by
      rw [denomVal, hd]
      rfl
    rw [hdv, ddiv, if_neg (by exact_mod_cast hdnz), zero_div, dlog_val,
      if_neg (by norm_num), if_pos rfl]

/-- C6 witness: a zero count with a zero prior (total `4`, denominator `5`)
gives the entry `-∞`. -/
theorem C6_zero_numerator_witness :
    ∃ out, calculate_log_probability ⟨1, 1, fun _ _ => 0⟩ [0] [4] =
      .ok out ∧ out.data 0 0 = .negInf := by
  have hden : denomAt [(4:ℚ)] 0 = .ok 5 := by
    show smoothingDenomOfTotal 4 = .ok 5
    exact smoothing_four
  exact C6_zero_numerator ⟨1, 1, fun _ _ => 0⟩ [0] [4] 0 0 5 rfl rfl
    Nat.one_pos Nat.one_pos
    (by
      intro j' hj'
      interval_cases j'
      · exact ⟨5, hden⟩)
    hden (by omega) (by norm_num)

/-- C7: the embedding of `calculate_log_probability` is a pure function of
exactly its three arguments — the source reads no globals, statics or other
hidden state — so any two calls on equal inputs return equal matrices. -/
theorem C7_deterministic (counts counts' : Mat ℚ)
    (priors priors' genus_counts genus_counts' : List ℚ)
    (hc : counts = counts') (hp : priors = priors')
    (hg : genus_counts = genus_counts') :
    calculate_log_probability counts priors genus_counts =
      calculate_log_probability counts' priors' genus_counts' := by
  rw [hc, hp, hg]

/-- C7 witness: two scenario calls agree. -/
theorem C7_deterministic_witness :
    calculate_log_probability scnCounts scnPriors scnTotals =
      calculate_log_probability scnCounts scnPriors scnTotals :=
  C7_deterministic scnCounts scnCounts scnPriors scnPriors scnTotals
    scnTotals rfl rfl rfl

/-- C8: with matching lengths and all conversions in range, the source's
column-major loop order and the row-major restructuring return the same
matrix: each cell depends only on `counts(i,j)`, `priors[i]` and
`genusTotals[j]`, with no shared accumulator. -/
theorem C8_order_independent (counts : Mat ℚ) (priors genus_counts : List ℚ)
    (hp : priors.length = counts.nrow)
    (hg : genus_counts.length = counts.ncol)
    (hrep : ∀ j, j < counts.ncol → ∃ d, denomAt genus_counts j = .ok d) :
    calculate_log_probability counts priors genus_counts =
      calculate_log_probability_rowMajor counts priors genus_counts := by
  rw [calculate_log_probability, calculate_log_probability_rowMajor,
    calc_quot_eq counts priors genus_counts (by omega) (by omega) hrep,
    calc_quot_rowMajor_eq counts priors genus_counts (by omega) (by omega)
      hrep]

/-- C8 witness: both loop orders agree on the scenario input. -/
theorem C8_order_independent_witness :
    calculate_log_probability scnCounts scnPriors scnTotals =
      calculate_log_probability_rowMajor scnCounts scnPriors scnTotals :=
  C8_order_independent scnCounts scnPriors scnTotals (by decide) (by decide)
    scn_rep

/-- C9: the denominator is a 32-bit `int` obtained by converting
`genus_counts[j] + 1` from double: when the truncation of
`genus_counts[j] + 1` is representable the conversion yields it, and any
total at or beyond `2^31 - 1` aborts with the overflow error instead of
producing `⌊genusTotals[j]⌋ + 1`. -/
theorem C9_int32_denominator :
    (∀ g : ℚ, intMin ≤ ratTrunc (g + 1) → ratTrunc (g + 1) ≤ intMax →
      smoothingDenomOfTotal g = .ok (ratTrunc (g + 1))) ∧
    (∀ g : ℚ, (2147483647 : ℚ) ≤ g →
      smoothingDenomOfTotal g = .error .intOverflow) := by
  exact ⟨smoothing_in_range, smoothing_overflow⟩

/-- C9 witness: total `100` converts to denominator `101`; total
`2^31 - 1` overflows. -/
theorem C9_int32_denominator_witness :
    smoothingDenomOfTotal (100 : ℚ) = .ok 101 ∧
    smoothingDenomOfTotal (2147483647 : ℚ) = .error .intOverflow := by
  constructor
  · have h : ratTrunc ((100:ℚ) + 1) = 101 := by
      rw [show ((100:ℚ) + 1) = ((101 : Int) : ℚ) by norm_num,
        ratTrunc_eq_floor _ (by norm_num), Int.floor_intCast]
    rw [C9_int32_denominator.1 100 (by rw [h]; rw [intMin]; omega)
      (by rw [h]; rw [intMax]; omega), h]
  · exact C9_int32_denominator.2 2147483647 le_rfl

/-- C10 counterexample: with zero rows, one column and empty vectors the
run still reads `genus_counts[0]` and stops with an out-of-bounds access
instead of returning the empty 0×1 matrix — so a genus-totals length
mismatch is observable even for an empty row dimension. -/
theorem C10_counterexample :
    calculate_log_probability ⟨0, 1, fun _ _ => 0⟩ [] [] =
      .error .oobAccess := by
  have h : calc_quot ⟨0, 1, fun _ _ => 0⟩ [] [] = .error .oobAccess := by
    show iterUp (colBody ⟨0, 1, fun _ _ => 0⟩ [] []) 1 (newMat 0 1) =
      .error .oobAccess
    rw [iterUp_succ, iterUp_zero, ok_bind, colBody,
      vget_oob [] 0 (by norm_num), error_bind]
  rw [calculate_log_probability, h, except_map_error]

/-- C10 (amended): when G = 0 the function reads nothing and returns the
empty (K,0) matrix whatever the vectors are; when K = 0 the function never
reads `priors` (its length is unobservable), but it still reads and
converts every `genusTotals[j]`, so it returns the empty (0,G) matrix only
when `genusTotals` covers all G columns with in-range totals
(`C10_counterexample` shows the out-of-bounds access otherwise). -/
theorem C10_empty_dims (counts : Mat ℚ) :
    (counts.ncol = 0 → ∀ priors genus_counts : List ℚ,
      ∃ out, calculate_log_probability counts priors genus_counts =
        .ok out ∧ out.nrow = counts.nrow ∧ out.ncol = counts.ncol) ∧
    (counts.nrow = 0 → ∀ priors priors' genus_counts : List ℚ,
      calculate_log_probability counts priors genus_counts =
        calculate_log_probability counts priors' genus_counts) ∧
    (counts.nrow = 0 → ∀ priors genus_counts : List ℚ,
      counts.ncol ≤ genus_counts.length →
      (∀ j, j < counts.ncol → ∃ d, denomAt genus_counts j = .ok d) →
      ∃ out, calculate_log_probability counts priors genus_counts =
        .ok out ∧ out.nrow = 0 ∧ out.ncol = counts.ncol) := by
  refine ⟨?_, ?_, ?_⟩
  · intro hc0 priors genus_counts
    refine ⟨Mat.map dlog (newMat counts.nrow counts.ncol), ?_, rfl, rfl⟩
    rw [calculate_log_probability, calc_quot, hc0, iterUp_zero]
    rfl
  · intro h0 priors priors' genus_counts
    have hcol : ∀ j acc, colBody counts priors genus_counts j acc =
        colBody counts priors' genus_counts j acc := by
      intro j acc
      rw [colBody, colBody, h0]
      simp only [iterUp_zero]
    have hquot : calc_quot counts priors genus_counts =
        calc_quot counts priors' genus_counts := by
      rw [calc_quot, calc_quot]
      exact iterUp_congr _ _ hcol counts.ncol _
    rw [calculate_log_probability, calculate_log_probability, hquot]
  · intro h0 priors genus_counts hglen hrep
    have hq := calc_quot_eq counts priors genus_counts (by omega) hglen hrep
    refine ⟨Mat.map dlog ⟨counts.nrow, counts.ncol, fun i j =>
        if i < counts.nrow ∧ j < counts.ncol then
          fullCell counts priors genus_counts i j
        else .val 0⟩, ?_, ?_, rfl⟩
    · rw [calculate_log_probability, hq]
      rfl
    · exact h0

/-- C10 witness: a 2×0 input returns an empty 2×0 matrix regardless of the
vectors, and a 0×1 input with a valid genus total returns an empty 0×1
matrix. -/
theorem C10_empty_dims_witness :
    (∃ out, calculate_log_probability ⟨2, 0, fun _ _ => 0⟩ [] [] =
      .ok out ∧ out.nrow = 2 ∧ out.ncol = 0) ∧
    (∃ out, calculate_log_probability ⟨0, 1, fun _ _ => 0⟩ [] [4] =
      .ok out ∧ out.nrow = 0 ∧ out.ncol = 1) := by
  constructor
  · exact (C10_empty_dims ⟨2, 0, fun _ _ => 0⟩).1 rfl [] []
  · exact (C10_empty_dims ⟨0, 1, fun _ _ => 0⟩).2.2 rfl [] [4] (by norm_num)
      (by
        intro j hj
        have hj1 : j < 1 := hj
        interval_cases j
        · exact ⟨5, by
            show smoothingDenomOfTotal 4 = .ok 5
            exact smoothing_four⟩)

end NaiveR
